import Mathlib

/-!
Verification development for the clickup-tui Task View Engine
(src/models.rs and src/app.rs).

The Rust code is shallowly embedded: tasks, overlays and the pure
classification / working-set / sorting / fuzzy-search logic become Lean
functions.  Timestamps (chrono DateTime) are modelled as Int; the i32
fuzzy score is modelled as Int (no claim concerns i32 overflow); Rust
HashMap/HashSet are modelled by association lists / lists, keeping the
overwrite-on-insert and membership semantics the code relies on.
Unicode-aware Rust primitives (to_lowercase, is_alphanumeric, string
order) are modelled by Lean's per-char toLower, Char.isAlphanum and the
lexicographic String order, which agree on the ASCII data the code is
designed for.  The unguarded while-loops of current_tasks are embedded
as fuel-indexed recursions returning Option: a none result corresponds
exactly to the source loop failing to terminate (the fuel given by
current_tasks, one more than the task count, is reached only when the
loop revisits a parent id, after which the source loop cycles forever).
-/

namespace ClickupTui

/-- TaskGroup from src/models.rs: the six display categories. -/
inductive TaskGroup where
  | MyAction
  | Waiting
  | Backlog
  | Done
  | Snoozed
  | Person
deriving DecidableEq

/-- TaskGroup.all from src/models.rs: the fixed order of the six groups. -/
def TaskGroup.all : List TaskGroup :=
  [TaskGroup.MyAction, TaskGroup.Waiting, TaskGroup.Backlog,
   TaskGroup.Done, TaskGroup.Snoozed, TaskGroup.Person]

/-- Lowercasing of a string, one char at a time (models Rust to_lowercase). -/
def lowerStr (s : String) : String :=
  String.mk (s.data.map Char.toLower)

/-- Recognized status labels of status_to_group in src/models.rs (already
lowercase), listed in source order. -/
def recognizedStatuses : List String :=
  ["in progress", "to do", "to-do", "todo", "in review", "review", "to review",
   "blocked", "in testing", "testing", "to validate", "validation", "pending review",
   "backlog", "open", "new",
   "done", "complete", "completed", "closed", "released", "deployed", "shipped",
   "cancelled", "canceled", "won\x27t do", "wontdo", "for reference"]

/-- status_to_group from src/models.rs: case-insensitive status lookup,
defaulting to Backlog. -/
def status_to_group (status : String) : TaskGroup :=
  let s := lowerStr status
  if s = "in progress" ∨ s = "to do" ∨ s = "to-do" ∨ s = "todo"
      ∨ s = "in review" ∨ s = "review" ∨ s = "to review" then
    TaskGroup.MyAction
  else if s = "blocked" ∨ s = "in testing" ∨ s = "testing"
      ∨ s = "to validate" ∨ s = "validation" ∨ s = "pending review" then
    TaskGroup.Waiting
  else if s = "backlog" ∨ s = "open" ∨ s = "new" then
    TaskGroup.Backlog
  else if s = "done" ∨ s = "complete" ∨ s = "completed" ∨ s = "closed"
      ∨ s = "released" ∨ s = "deployed" ∨ s = "shipped"
      ∨ s = "cancelled" ∨ s = "canceled" ∨ s = "won\x27t do" ∨ s = "wontdo"
      ∨ s = "for reference" then
    TaskGroup.Done
  else
    TaskGroup.Backlog

/-- Task from src/models.rs (ids and labels are strings, timestamps Int). -/
structure Task where
  id : String
  name : String
  status : String
  list_name : String
  due_date : Option Int
  priority : Option Nat
  url : String
  tags : List String
  description : Option String
  custom_item_id : Option Nat
  custom_id : Option String
  parent_id : Option String
  assignee_ids : List Nat
deriving DecidableEq

/-- Task::group from src/models.rs. -/
def Task.group (t : Task) : TaskGroup :=
  status_to_group t.status

/-- Task::is_assigned_to from src/models.rs. -/
def Task.is_assigned_to (t : Task) (user_id : Nat) : Bool :=
  t.assignee_ids.contains user_id

/-- TaskOverlay from src/models.rs. -/
structure TaskOverlay where
  pinned : Bool
  snoozed_until : Option Int
  sort_order : Option Nat
deriving DecidableEq

/-- Default TaskOverlay (derive(Default) in src/models.rs). -/
def TaskOverlay.mkDefault : TaskOverlay :=
  { pinned := false, snoozed_until := none, sort_order := none }

/-- LocalState from src/models.rs; the overlay HashMap is modelled as a
function from task id to optional overlay. -/
structure LocalState where
  overlays : String → Option TaskOverlay
  last_refresh : Option Int

/-- Empty LocalState (derive(Default) in src/models.rs). -/
def LocalState.empty : LocalState :=
  { overlays := fun _ => none, last_refresh := none }

/-- LocalState::get_overlay from src/models.rs. -/
def LocalState.get_overlay (st : LocalState) (task_id : String) : TaskOverlay :=
  (st.overlays task_id).getD TaskOverlay.mkDefault

/-- LocalState::toggle_pin from src/models.rs: fetch-or-default the entry,
then flip its pinned flag. -/
def LocalState.toggle_pin (st : LocalState) (task_id : String) : LocalState :=
  { st with
    overlays := fun k =>
      if k = task_id then
        let o := (st.overlays task_id).getD TaskOverlay.mkDefault
        some { o with pinned := !o.pinned }
      else st.overlays k }

/-- LocalState::is_pinned from src/models.rs. -/
def LocalState.is_pinned (st : LocalState) (task_id : String) : Bool :=
  ((st.overlays task_id).map (fun o => o.pinned)).getD false

/-- DisplayTask from src/models.rs. -/
structure DisplayTask where
  task : Task
  overlay : TaskOverlay
deriving DecidableEq

/-- DisplayTask::effective_group from src/models.rs, with the Utc::now()
call made an explicit argument. -/
def DisplayTask.effective_group (dt : DisplayTask) (now : Int) : TaskGroup :=
  if (dt.overlay.snoozed_until.map (fun u => decide (u > now))).getD false then
    TaskGroup.Snoozed
  else
    dt.task.group

/-- Display task for a task under a LocalState (DisplayTask::new applied to
the stored-or-default overlay, as done throughout src/app.rs). -/
def mkDisplay (st : LocalState) (t : Task) : DisplayTask :=
  { task := t, overlay := st.get_overlay t.id }

/-- Index of all display tasks keyed by id, from App::current_tasks
(collect into a HashMap: a later task with the same id overwrites an
earlier one). -/
def taskIndex (tasks : List Task) (st : LocalState) (id : String) :
    Option DisplayTask :=
  tasks.foldl (fun acc t => if t.id = id then some (mkDisplay st t) else acc) none

/-- Assignment filter of App::current_tasks: no user id means everything
passes. -/
def assignedOk (user_id : Option Nat) (dt : DisplayTask) : Bool :=
  (user_id.map (fun uid => dt.task.is_assigned_to uid)).getD true

/-- Category membership test (the in_group value in App::current_tasks and
the filter of App::group_counts): Person is keyed purely on
custom_item_id = 1020, the other five require a non-Person task whose
effective group matches. -/
def inGroup (g : TaskGroup) (now : Int) (dt : DisplayTask) : Bool :=
  if g = TaskGroup.Person then
    decide (dt.task.custom_item_id = some 1020)
  else
    decide (dt.task.custom_item_id ≠ some 1020) &&
      decide (dt.effective_group now = g)

/-- Text filter of App::current_tasks: empty query passes, otherwise a
case-insensitive substring match on name, list_name, status or
description. -/
def textMatch (query : String) (dt : DisplayTask) : Bool :=
  if query = "" then true
  else
    let q := (lowerStr query).data
    decide (q <:+: (lowerStr dt.task.name).data)
    || decide (q <:+: (lowerStr dt.task.list_name).data)
    || decide (q <:+: (lowerStr dt.task.status).data)
    || ((dt.task.description.map
          (fun d => decide (q <:+: (lowerStr d).data))).getD false)

/-- Primary ("my") tasks of App::current_tasks: tasks in source order that
pass the category + assignment filter and then the text filter. -/
def myTasks (tasks : List Task) (st : LocalState) (g : TaskGroup)
    (user_id : Option Nat) (query : String) (now : Int) : List DisplayTask :=
  ((tasks.map (mkDisplay st)).filter
      (fun dt => inGroup g now dt && assignedOk user_id dt)).filter
    (fun dt => textMatch query dt)

/-- Fuel-indexed embedding of the ancestor while-loop of
App::current_tasks.  The source loop has no cycle guard; a none result
models the loop running forever (fuel is consumed only when the loop
continues past an assigned parent, so with fuel exceeding the task count
none occurs exactly when a parent id repeats, i.e. the source loop
cycles). -/
def ancestor_walk (index : String → Option DisplayTask) (user_id : Option Nat) :
    Nat → Option String → List DisplayTask → Option (List DisplayTask)
  | fuel, cur, acc =>
    match cur with
    | none => some acc
    | some pid =>
      match index pid with
      | none => some acc
      | some parent =>
        let acc2 := acc ++ [parent]
        if (user_id.map (fun uid => parent.task.is_assigned_to uid)).getD true then
          match fuel with
          | 0 => none
          | f + 1 => ancestor_walk index user_id f parent.task.parent_id acc2
        else some acc2

/-- Push a display task unless its id is already in the added-id set
(the added_ids HashSet of App::current_tasks). -/
def pushUnique (p : List DisplayTask × List String) (dt : DisplayTask) :
    List DisplayTask × List String :=
  if dt.task.id ∈ p.2 then p else (p.1 ++ [dt], p.2 ++ [dt.task.id])

/-- Include loop of App::current_tasks: per primary task, collect the
ancestor chain, add the ancestors top-most first, then the task itself,
deduplicating by id. -/
def buildIncluded (index : String → Option DisplayTask) (user_id : Option Nat)
    (fuel : Nat) (mine : List DisplayTask) :
    Option (List DisplayTask × List String) :=
  mine.foldl
    (fun acc dt =>
      acc.bind (fun p =>
        (ancestor_walk index user_id fuel dt.task.parent_id []).map
          (fun ancestors => pushUnique (ancestors.reverse.foldl pushUnique p) dt)))
    (some ([], []))

/-- Fuel-indexed embedding of the depth loop of App::current_tasks: count
parent steps while the parent id stays inside the visible (added) set. -/
def depth_walk (index : String → Option DisplayTask) (added : List String) :
    Nat → Option String → Nat → Option Nat
  | fuel, pid, d =>
    match pid with
    | none => some d
    | some p =>
      if p ∈ added then
        match fuel with
        | 0 => none
        | f + 1 =>
          depth_walk index added f ((index p).bind (fun t => t.task.parent_id)) (d + 1)
      else some d

/-- Depth map (task id to depth) built by App::current_tasks before
sorting. -/
def buildDepths (index : String → Option DisplayTask) (added : List String)
    (fuel : Nat) (included : List DisplayTask) : Option (List (String × Nat)) :=
  included.mapM (fun dt =>
    (depth_walk index added fuel dt.task.parent_id 0).map (fun d => (dt.task.id, d)))

/-- Fuel-indexed embedding of the get_root closure of App::current_tasks:
walk visible parents upward, remembering the last visible id reached. -/
def get_root (index : String → Option DisplayTask) (added : List String) :
    Nat → String → Option String → Option String
  | fuel, root, cur =>
    match cur with
    | none => some root
    | some pid =>
      if pid ∈ added then
        match fuel with
        | 0 => none
        | f + 1 =>
          get_root index added f pid ((index pid).bind (fun t => t.task.parent_id))
      else some root

/-- Trichotomy comparator on a linear order (Rust Ord::cmp on ids, depths,
priorities, scores). -/
def cmpo {α : Type} [LinearOrder α] (x y : α) : Ordering :=
  if x < y then Ordering.lt else if x = y then Ordering.eq else Ordering.gt

/-- Root-priority comparison of App::current_tasks: both present compare
numerically, a present priority sorts before a missing one. -/
def priorityCmp : Option Nat → Option Nat → Ordering
  | some pa, some pb => cmpo pa pb
  | some _, none => Ordering.lt
  | none, some _ => Ordering.gt
  | none, none => Ordering.eq

/-- Root id of a display task as the sort comparator computes it.  The
getD fallback is reachable only when the depth-map pass already failed to
terminate, in which case current_tasks is none and no sorting happens. -/
def sortRoot (index : String → Option DisplayTask) (added : List String)
    (fuel : Nat) (dt : DisplayTask) : String :=
  (get_root index added fuel dt.task.id dt.task.parent_id).getD dt.task.id

/-- Comparator of the sort in App::current_tasks: root priority, then root
id for different families, then depth, then task id. -/
def taskCompare (index : String → Option DisplayTask) (added : List String)
    (depths : List (String × Nat)) (fuel : Nat) (a b : DisplayTask) : Ordering :=
  let root_a := sortRoot index added fuel a
  let root_b := sortRoot index added fuel b
  let pCmp := priorityCmp ((index root_a).bind (fun t => t.task.priority))
                          ((index root_b).bind (fun t => t.task.priority))
  if pCmp ≠ Ordering.eq then pCmp
  else if root_a ≠ root_b then cmpo root_a root_b
  else
    let dCmp := cmpo ((depths.lookup a.task.id).getD 0)
                     ((depths.lookup b.task.id).getD 0)
    if dCmp ≠ Ordering.eq then dCmp
    else cmpo a.task.id b.task.id

/-- App::current_tasks from src/app.rs: primary tasks plus ancestors,
deduplicated, depth-annotated and sorted (sort_by is a stable sort by the
comparator, embedded as mergeSort on its isLE).  A none result models the
source function failing to terminate on a parent-id cycle. -/
def current_tasks (tasks : List Task) (st : LocalState) (g : TaskGroup)
    (user_id : Option Nat) (query : String) (now : Int) :
    Option (List DisplayTask) :=
  let index := taskIndex tasks st
  let fuel := tasks.length + 1
  (buildIncluded index user_id fuel (myTasks tasks st g user_id query now)).bind
    (fun p =>
      (buildDepths index p.2 fuel p.1).map (fun depths =>
        p.1.mergeSort (fun a b => (taskCompare index p.2 depths fuel a b).isLE)))

/-- Count for a single group (the closure inside App::group_counts). -/
def groupCountFor (tasks : List Task) (st : LocalState) (now : Int)
    (g : TaskGroup) : Nat :=
  (tasks.map (mkDisplay st)).countP (fun dt => inGroup g now dt)

/-- App::group_counts from src/app.rs. -/
def group_counts (tasks : List Task) (st : LocalState) (now : Int) :
    List (TaskGroup × Nat) :=
  TaskGroup.all.map (fun g => (g, groupCountFor tasks st now g))

/-- Word-boundary test of fuzzy_score: text index 0, or the previous char
is not alphanumeric (Char.isAlphanum models Rust char::is_alphanumeric;
they agree on ASCII). -/
def isWordBoundary (prev : Option Char) : Bool :=
  match prev with
  | none => true
  | some p => !p.isAlphanum

/-- Scanning loop of fuzzy_score from src/app.rs, carrying the remaining
query chars, the current text index, the previous text char, the last
match index, the score and the separate consecutive bonus. -/
def fuzzyLoop : List Char → List Char → Nat → Option Char → Option Nat →
    Int → Int → List Char × Int × Int
  | qs, [], _, _, _, score, cb => (qs, score, cb)
  | qs, tc :: rest, tIdx, prev, last, score, cb =>
    match qs with
    | qc :: qrest =>
      if tc = qc then
        let cb2 :=
          match last with
          | some l => if tIdx = l + 1 then cb + 5 else cb
          | none => cb
        let score2 := if isWordBoundary prev then score + 10 else score
        fuzzyLoop qrest rest (tIdx + 1) (some tc) (some tIdx) (score2 + 1) cb2
      else
        fuzzyLoop qs rest (tIdx + 1) (some tc) last score cb
    | [] => fuzzyLoop [] rest (tIdx + 1) (some tc) last score cb

/-- fuzzy_score from src/app.rs: Some(score) iff every query char is found
in order while scanning the lowercased text once. -/
def fuzzy_score (text : String) (query_chars : List Char) : Option Int :=
  if query_chars = [] then some 0
  else
    let r := fuzzyLoop query_chars (lowerStr text).data 0 none none 0 0
    if r.1 = [] then some (r.2.1 + r.2.2) else none

/-- Field chain of App::search_all_tasks: name, list_name, status,
description (when present), then the tags in order; the first matching
field provides the score. -/
def taskScore (t : Task) (q : List Char) : Option Int :=
  (fuzzy_score t.name q).orElse (fun _ =>
    (fuzzy_score t.list_name q).orElse (fun _ =>
      (fuzzy_score t.status q).orElse (fun _ =>
        (t.description.bind (fun d => fuzzy_score d q)).orElse (fun _ =>
          t.tags.findSome? (fun tag => fuzzy_score tag q)))))

/-- App::search_all_tasks from src/app.rs: empty query gives no results,
otherwise score every task and stably sort by descending score. -/
def search_all_tasks (tasks : List Task) (st : LocalState) (query : String) :
    List DisplayTask :=
  if query = "" then []
  else
    let q := (lowerStr query).data
    let results := (tasks.map (mkDisplay st)).filterMap
      (fun dt => (taskScore dt.task q).map (fun s => (dt, s)))
    (results.mergeSort (fun a b => (cmpo b.2 a.2).isLE)).map (fun r => r.1)

/-- Effective classification including the Person partition, exactly as
applied (in distributed form) by App::current_tasks and
App::group_counts: custom_item_id 1020 is Person, anything else takes
its effective group. -/
def classifyDT (dt : DisplayTask) (now : Int) : TaskGroup :=
  if dt.task.custom_item_id = some 1020 then TaskGroup.Person
  else dt.effective_group now

/-- Template task used by the concrete examples below. -/
def task0 : Task :=
  { id := "t", name := "T", status := "to do", list_name := "L",
    due_date := none, priority := none, url := "", tags := [],
    description := none, custom_item_id := none, custom_id := none,
    parent_id := none, assignee_ids := [] }

/-- Cycle example: cycA's parent is cycB. -/
def cycA : Task :=
  { task0 with id := "a", status := "open", parent_id := some "b" }

/-- Cycle example: cycB's parent is cycA, closing the cycle. -/
def cycB : Task :=
  { task0 with id := "b", status := "open", parent_id := some "a" }

/-- Person-tagged root task (custom_item_id 1020). -/
def exP : Task :=
  { task0 with id := "p", status := "open", custom_item_id := some 1020 }

/-- Plain MyAction child task whose parent is the Person task exP. -/
def exC : Task :=
  { task0 with id := "c", parent_id := some "p" }

/-- Plain root task for the depth example. -/
def exR : Task :=
  { task0 with id := "r" }

/-- Direct child of exR for the depth example. -/
def exS : Task :=
  { task0 with id := "s", parent_id := some "r" }

/-- Status_to_group never yields Person or Snoozed: those arise only from
the custom_item_id partition and the snooze override. -/
lemma status_to_group_mem (s : String) :
    status_to_group s = TaskGroup.MyAction ∨ status_to_group s = TaskGroup.Waiting
      ∨ status_to_group s = TaskGroup.Backlog ∨ status_to_group s = TaskGroup.Done := by
  simp only [status_to_group]
  split
  · exact Or.inl rfl
  · split
    · exact Or.inr (Or.inl rfl)
    · split
      · exact Or.inr (Or.inr (Or.inl rfl))
      · split
        · exact Or.inr (Or.inr (Or.inr rfl))
        · exact Or.inr (Or.inr (Or.inl rfl))

/-- An effective group is never Person. -/
lemma effective_group_ne_person (dt : DisplayTask) (now : Int) :
    dt.effective_group now ≠ TaskGroup.Person := by
  unfold DisplayTask.effective_group
  split
  · intro h; cases h
  · unfold Task.group
    rcases status_to_group_mem dt.task.status with h | h | h | h <;> rw [h] <;>
      intro hc <;> cases hc

/-- The in_group test of the source equals membership under the
centralized classifier. -/
lemma inGroup_iff_classify (g : TaskGroup) (now : Int) (dt : DisplayTask) :
    inGroup g now dt = true ↔ classifyDT dt now = g := by
  unfold inGroup classifyDT
  by_cases h1020 : dt.task.custom_item_id = some 1020
  · by_cases hg : g = TaskGroup.Person
    · subst hg; simp [h1020]
    · simp [h1020, hg, Ne.symm hg]
  · by_cases hg : g = TaskGroup.Person
    · subst hg; simp [h1020, effective_group_ne_person dt now]
    · simp [h1020, hg]

/-- C9: classification is total over the six categories, the status lookup
depends only on the lowercased status, and any status whose lowercase
form is not a recognized label maps to Backlog. -/
theorem c9_classifier_total :
    (∀ (dt : DisplayTask) (now : Int), classifyDT dt now ∈ TaskGroup.all)
    ∧ (∀ s1 s2 : String, lowerStr s1 = lowerStr s2 →
        status_to_group s1 = status_to_group s2)
    ∧ (∀ s : String, lowerStr s ∉ recognizedStatuses →
        status_to_group s = TaskGroup.Backlog) := by
  refine ⟨?_, ?_, ?_⟩
  · intro dt now
    cases h : classifyDT dt now <;> simp [TaskGroup.all]
  · intro s1 s2 h
    simp only [status_to_group]
    rw [h]
  · intro s h
    have ne : ∀ x, x ∈ recognizedStatuses → ¬ lowerStr s = x :=
      fun x hx he => h (he ▸ hx)
    simp only [status_to_group]
    rw [if_neg, if_neg, if_neg, if_neg]
    · rintro (h' | h' | h' | h' | h' | h' | h' | h' | h' | h' | h' | h') <;>
        exact ne _ (by decide) h'
    · rintro (h' | h' | h') <;> exact ne _ (by decide) h'
    · rintro (h' | h' | h' | h' | h' | h') <;> exact ne _ (by decide) h'
    · rintro (h' | h' | h' | h' | h' | h' | h') <;> exact ne _ (by decide) h'

/-- Witness for C9 at concrete inputs. -/
theorem c9_classifier_total_witness :
    (lowerStr "DoNe" = lowerStr "done"
      ∧ status_to_group "DoNe" = status_to_group "done")
    ∧ (lowerStr "WeIrD StAtUs" ∉ recognizedStatuses
      ∧ status_to_group "WeIrD StAtUs" = TaskGroup.Backlog) :=
  ⟨⟨by decide, c9_classifier_total.2.1 "DoNe" "done" (by decide)⟩,
   ⟨by decide, c9_classifier_total.2.2 "WeIrD StAtUs" (by decide)⟩⟩

/-- C7: a snoozed task (snoozed_until strictly in the future) classifies
as Snoozed whatever its status; at or after the snooze instant the
classification is back to the status-derived group. -/
theorem c7_snooze_override (t : Task) (o : TaskOverlay) (u now : Int)
    (hp : t.custom_item_id ≠ some 1020) (hs : o.snoozed_until = some u)
    (hfut : u > now) :
    DisplayTask.effective_group ⟨t, o⟩ now = TaskGroup.Snoozed
    ∧ ∀ later : Int, u ≤ later →
        DisplayTask.effective_group ⟨t, o⟩ later = status_to_group t.status := by
  constructor
  · simp [DisplayTask.effective_group, hs, hfut]
  · intro later hle
    have hng : ¬ (u > later) := not_lt.mpr hle
    simp [DisplayTask.effective_group, hs, hng, Task.group]

/-- Done-status task snoozed until time 5 for the C7 witness. -/
def snoozedDone : Task :=
  { task0 with id := "z", status := "done" }

/-- Overlay snoozing until time 5. -/
def snoozeOverlay : TaskOverlay :=
  { pinned := false, snoozed_until := some 5, sort_order := none }

/-- Witness for C7: snoozed Done task is Snoozed at time 3, Done again at
time 5. -/
theorem c7_snooze_override_witness :
    (snoozedDone.custom_item_id ≠ some 1020
      ∧ snoozeOverlay.snoozed_until = some 5 ∧ (5 : Int) > 3)
    ∧ DisplayTask.effective_group ⟨snoozedDone, snoozeOverlay⟩ 3 = TaskGroup.Snoozed
    ∧ DisplayTask.effective_group ⟨snoozedDone, snoozeOverlay⟩ 5
        = status_to_group snoozedDone.status :=
  ⟨⟨by decide, by decide, by decide⟩,
   (c7_snooze_override snoozedDone snoozeOverlay 5 3 (by decide) (by decide)
      (by decide)).1,
   (c7_snooze_override snoozedDone snoozeOverlay 5 3 (by decide) (by decide)
      (by decide)).2 5 (by decide)⟩

/-- C10: toggle_pin flips is_pinned for the toggled id (an absent overlay
reads as unpinned and becomes pinned), a second toggle restores the
original value, and overlays of every other id are untouched. -/
theorem c10_toggle_pin (st : LocalState) (id : String) :
    (st.toggle_pin id).is_pinned id = !(st.is_pinned id)
    ∧ ((st.toggle_pin id).toggle_pin id).is_pinned id = st.is_pinned id
    ∧ ∀ id2, id2 ≠ id →
        ((st.toggle_pin id).overlays id2 = st.overlays id2
          ∧ ((st.toggle_pin id).toggle_pin id).overlays id2 = st.overlays id2) := by
  refine ⟨?_, ?_, ?_⟩
  · cases h : st.overlays id <;>
      simp [LocalState.toggle_pin, LocalState.is_pinned, TaskOverlay.mkDefault, h]
  · cases h : st.overlays id <;>
      simp [LocalState.toggle_pin, LocalState.is_pinned, TaskOverlay.mkDefault, h]
  · intro id2 hne
    simp [LocalState.toggle_pin, hne]

/-- Witness for C10 on the empty state and ids "a" and "b". -/
theorem c10_toggle_pin_witness :
    (LocalState.empty.toggle_pin "a").is_pinned "a"
        = !(LocalState.empty.is_pinned "a")
    ∧ ((LocalState.empty.toggle_pin "a").toggle_pin "a").is_pinned "a"
        = LocalState.empty.is_pinned "a"
    ∧ (LocalState.empty.toggle_pin "a").overlays "b"
        = LocalState.empty.overlays "b" :=
  ⟨(c10_toggle_pin LocalState.empty "a").1,
   (c10_toggle_pin LocalState.empty "a").2.1,
   ((c10_toggle_pin LocalState.empty "a").2.2 "b" (by decide)).1⟩

/-- Summing the six per-group counts over a display-task list counts
every task exactly once, because the classifier puts each task in
exactly one group. -/
lemma sum_counts_eq_length (now : Int) (dts : List DisplayTask) :
    (TaskGroup.all.map (fun g => dts.countP (fun dt => inGroup g now dt))).sum
      = dts.length := by
  induction dts with
  | nil => simp
  | cons dt rest ih =>
    have hsix : ∀ g, (inGroup g now dt = true) = (classifyDT dt now = g) :=
      fun g => propext (inGroup_iff_classify g now dt)
    simp only [TaskGroup.all, List.map_cons, List.map_nil, List.sum_cons,
      List.sum_nil, List.countP_cons, hsix] at ih ⊢
    rcases h : classifyDT dt now <;> simp [h] <;> omega

/-- C8: the six counts of group_counts sum to the number of fetched
tasks. -/
theorem c8_group_counts_sum (tasks : List Task) (st : LocalState) (now : Int) :
    ((group_counts tasks st now).map Prod.snd).sum = tasks.length := by
  have h := sum_counts_eq_length now (tasks.map (mkDisplay st))
  simp only [group_counts, List.map_map]
  simpa [Function.comp, groupCountFor, List.length_map] using h

/-- Sort predicate of the two-task Person example, with the context that
current_tasks computes for it. -/
def exPC_le (a b : DisplayTask) : Bool :=
  (taskCompare (taskIndex [exP, exC] LocalState.empty) ["p", "c"]
    [("p", 0), ("c", 1)] 3 a b).isLE

/-- C2 counterexample: the Person-tagged task exP (custom_item_id 1020)
appears in the working set built for MyAction — it is pulled in as the
ancestor of the primary task exC — refuting that a Person task never
appears in the working set of the other five categories. -/
theorem c2_person_counterexample :
    TaskGroup.MyAction ≠ TaskGroup.Person
    ∧ exP.custom_item_id = some 1020
    ∧ mkDisplay LocalState.empty exP ∈
        (current_tasks [exP, exC] LocalState.empty TaskGroup.MyAction none "" 0).getD [] := by
  refine ⟨by decide, by decide, ?_⟩
  have h : current_tasks [exP, exC] LocalState.empty TaskGroup.MyAction none "" 0
      = some (([mkDisplay LocalState.empty exP,
          mkDisplay LocalState.empty exC]).mergeSort exPC_le) := by rfl
  rw [h]
  simp [List.mem_mergeSort]

/-- C2 amended: a Person-tagged task passes the category membership test
only for Person, is never a primary task of the other five categories,
and the group counter tallies it only under Person (non-Person counts
ignore 1020-tagged tasks entirely) — though it can still enter another
category's working set as an ancestor. -/
theorem c2_person_partition (t : Task) (h1020 : t.custom_item_id = some 1020) :
    (∀ (o : TaskOverlay) (now : Int) (g : TaskGroup),
        inGroup g now ⟨t, o⟩ = true ↔ g = TaskGroup.Person)
    ∧ (∀ tasks st g uid query now dt, g ≠ TaskGroup.Person →
        dt ∈ myTasks tasks st g uid query now → dt.task.custom_item_id ≠ some 1020)
    ∧ (∀ tasks st now g, g ≠ TaskGroup.Person →
        groupCountFor tasks st now g
          = ((tasks.filter (fun tk => tk.custom_item_id ≠ some 1020)).map
              (mkDisplay st)).countP (fun dt => inGroup g now dt)) := by
  refine ⟨?_, ?_, ?_⟩
  · intro o now g
    rw [inGroup_iff_classify]
    unfold classifyDT
    simp only [h1020, if_pos]
    exact eq_comm
  · intro tasks st g uid query now dt hg hdt
    unfold myTasks at hdt
    have h2 := (List.mem_filter.mp (List.mem_filter.mp hdt).1).2
    rw [Bool.and_eq_true] at h2
    have h3 := h2.1
    unfold inGroup at h3
    rw [if_neg hg, Bool.and_eq_true] at h3
    exact of_decide_eq_true h3.1
  · intro tasks st now g hg
    unfold groupCountFor
    induction tasks with
    | nil => simp
    | cons tk rest ih =>
      by_cases hc : tk.custom_item_id = some 1020
      · have hfalse : inGroup g now (mkDisplay st tk) = false := by
          rw [← Bool.not_eq_true, inGroup_iff_classify]
          unfold classifyDT
          have : (mkDisplay st tk).task.custom_item_id = some 1020 := hc
          rw [if_pos this]
          exact fun he => hg he.symm
        simp [List.countP_cons, List.filter_cons, hc, hfalse, ih]
      · simp [List.countP_cons, List.filter_cons, hc, ih]

/-- Witness for C2's amended statement at concrete inputs: the membership
test of exP, a concrete primary task of MyAction, and the MyAction count
of the two-task example. -/
theorem c2_person_partition_witness :
    exP.custom_item_id = some 1020
    ∧ (inGroup TaskGroup.Backlog 0 ⟨exP, TaskOverlay.mkDefault⟩ = true
        ↔ TaskGroup.Backlog = TaskGroup.Person)
    ∧ (mkDisplay LocalState.empty exC).task.custom_item_id ≠ some 1020
    ∧ groupCountFor [exP, exC] LocalState.empty 0 TaskGroup.MyAction
        = (([exP, exC].filter (fun tk => tk.custom_item_id ≠ some 1020)).map
            (mkDisplay LocalState.empty)).countP (fun dt => inGroup TaskGroup.MyAction 0 dt) :=
  ⟨by decide,
   (c2_person_partition exP (by decide)).1 TaskOverlay.mkDefault 0 TaskGroup.Backlog,
   (c2_person_partition exP (by decide)).2.1 [exC] LocalState.empty TaskGroup.MyAction
     none "" 0 (mkDisplay LocalState.empty exC) (by decide) (by decide),
   (c2_person_partition exP (by decide)).2.2 [exP, exC] LocalState.empty 0
     TaskGroup.MyAction (by decide)⟩

/-- C1: on the two-task parent cycle (cycA's parent is cycB and cycB's
parent is cycA, both passing the filterless assignment check) the
ancestor loop of current_tasks never terminates: the fuel-indexed
embedding of the unguarded source loop returns none for every fuel
bound and every accumulator, and current_tasks on this input is none
instead of a finite working set. -/
theorem c1_cycle_nontermination :
    (∀ (fuel : Nat) (acc : List DisplayTask),
        ancestor_walk (taskIndex [cycA, cycB] LocalState.empty) none fuel
            (some "b") acc = none
        ∧ ancestor_walk (taskIndex [cycA, cycB] LocalState.empty) none fuel
            (some "a") acc = none)
    ∧ current_tasks [cycA, cycB] LocalState.empty TaskGroup.Backlog none "" 0
        = none := by
  constructor
  · intro fuel
    induction fuel with
    | zero => exact fun acc => ⟨rfl, rfl⟩
    | succ f ih =>
      intro acc
      exact ⟨(ih (acc ++ [mkDisplay LocalState.empty cycB])).2,
             (ih (acc ++ [mkDisplay LocalState.empty cycA])).1⟩
  · rfl

/-- Chain of visible-ancestor ids that the depth loop visits: follow
parent ids while they stay in the visible (added) set; fuel-indexed like
depth_walk, with none marking the same nontermination. -/
def visibleChain (index : String → Option DisplayTask) (added : List String) :
    Nat → Option String → Option (List String)
  | fuel, pid =>
    match pid with
    | none => some []
    | some p =>
      if p ∈ added then
        match fuel with
        | 0 => none
        | f + 1 =>
          (visibleChain index added f ((index p).bind (fun t => t.task.parent_id))).map
            (fun c => p :: c)
      else some []

/-- Modelled from the spec: the number of visible ancestors strictly
between a task and its root, i.e. the visible chain without its final
element (the root itself). -/
def strictlyBetween (index : String → Option DisplayTask) (added : List String)
    (fuel : Nat) (pid : Option String) : Option Nat :=
  (visibleChain index added fuel pid).map (fun c => c.length - 1)

/-- C4 counterexample: for the two-task family (root exR with direct
child exS) the pipeline of current_tasks stores depth 1 for the child in
the depth map consumed by the sorter, yet no visible ancestor lies
strictly between the child and its root (the spec count is 0). -/
theorem c4_depth_counterexample :
    buildIncluded (taskIndex [exR, exS] LocalState.empty) none 3
        (myTasks [exR, exS] LocalState.empty TaskGroup.MyAction none "" 0)
      = some ([mkDisplay LocalState.empty exR, mkDisplay LocalState.empty exS],
          ["r", "s"])
    ∧ buildDepths (taskIndex [exR, exS] LocalState.empty) ["r", "s"] 3
        [mkDisplay LocalState.empty exR, mkDisplay LocalState.empty exS]
      = some [("r", 0), ("s", 1)]
    ∧ strictlyBetween (taskIndex [exR, exS] LocalState.empty) ["r", "s"] 3
        exS.parent_id = some 0
    ∧ (1 : Nat) ≠ 0 :=
  ⟨by decide, by decide, by decide, by decide⟩

/-- C4 amended: the depth value used by the sorter counts all visible
ancestors of a task including its root: depth_walk returns the length of
the visible-ancestor chain (a root has depth 0, a direct child of the
root has depth 1). -/
theorem c4_depth_amended (index : String → Option DisplayTask)
    (added : List String) :
    ∀ (fuel : Nat) (pid : Option String) (d : Nat),
      depth_walk index added fuel pid d
        = (visibleChain index added fuel pid).map (fun c => d + c.length) := by
  intro fuel
  induction fuel with
  | zero =>
    intro pid d
    cases pid with
    | none => rfl
    | some p =>
      by_cases hp : p ∈ added
      · simp [depth_walk, visibleChain, hp]
      · simp [depth_walk, visibleChain, hp]
  | succ f ih =>
    intro pid d
    cases pid with
    | none => rfl
    | some p =>
      by_cases hp : p ∈ added
      · simp only [depth_walk, visibleChain, hp, if_pos]
        rw [ih]
        cases visibleChain index added f ((index p).bind (fun t => t.task.parent_id)) with
        | none => rfl
        | some c => simp [Nat.add_comm, Nat.add_assoc, Nat.add_left_comm]
      · simp [depth_walk, visibleChain, hp]

/-- The scan of fuzzy_score consumes the whole query exactly when the
query is a subsequence of the scanned text (greedy matching is complete
for subsequence search). -/
lemma fuzzyLoop_rem_eq_nil_iff :
    ∀ (text qs : List Char) (tIdx : Nat) (prev : Option Char)
      (last : Option Nat) (score cb : Int),
      (fuzzyLoop qs text tIdx prev last score cb).1 = [] ↔ qs.Sublist text := by
  intro text
  induction text with
  | nil =>
    intro qs tIdx prev last score cb
    simp [fuzzyLoop, List.sublist_nil]
  | cons tc rest ih =>
    intro qs tIdx prev last score cb
    cases qs with
    | nil =>
      simp only [fuzzyLoop]
      rw [ih]
      simp [List.nil_sublist]
    | cons qc qrest =>
      by_cases hh : tc = qc
      · simp only [fuzzyLoop, if_pos hh]
        rw [ih]
        subst hh
        exact List.cons_sublist_cons.symm
      · simp only [fuzzyLoop, if_neg hh]
        rw [ih]
        constructor
        · exact fun hs => hs.cons tc
        · intro hs
          cases hs with
          | cons _ hs => exact hs
          | cons₂ _ hs => exact absurd rfl hh

/-- A field matches (fuzzy_score is some) iff the query chars occur as a
subsequence of the lowercased field. -/
lemma fuzzy_score_isSome_iff (text : String) (q : List Char) :
    (fuzzy_score text q).isSome = true ↔ q.Sublist (lowerStr text).data := by
  have h := fuzzyLoop_rem_eq_nil_iff (lowerStr text).data q 0 none none 0 0
  by_cases hq : q = []
  · subst hq
    simp [fuzzy_score, List.nil_sublist]
  · constructor
    · intro hx
      by_contra hs
      have hne : ¬ (fuzzyLoop q (lowerStr text).data 0 none none 0 0).1 = [] :=
        fun he => hs (h.mp he)
      simp [fuzzy_score, if_neg hq, if_neg hne] at hx
    · intro hs
      simp [fuzzy_score, if_neg hq, h.mpr hs]

/-- Modelled from the spec wording of the per-field score: scan the field
once keeping a single running total, adding per matched char 1 point,
10 for a word boundary and 5 for a consecutive match. -/
def specLoop : List Char → List Char → Nat → Option Char → Option Nat → Int →
    List Char × Int
  | qs, [], _, _, _, total => (qs, total)
  | qs, tc :: rest, tIdx, prev, last, total =>
    match qs with
    | qc :: qrest =>
      if tc = qc then
        specLoop qrest rest (tIdx + 1) (some tc) (some tIdx)
          (total + 1 + (if isWordBoundary prev then 10 else 0)
            + (match last with
               | some l => if tIdx = l + 1 then (5 : Int) else 0
               | none => 0))
      else specLoop qs rest (tIdx + 1) (some tc) last total
    | [] => specLoop [] rest (tIdx + 1) (some tc) last total

/-- The source's split score/consecutive-bonus accounting agrees with the
single-total spec scan. -/
lemma specLoop_eq_fuzzyLoop :
    ∀ (text qs : List Char) (tIdx : Nat) (prev : Option Char)
      (last : Option Nat) (score cb : Int),
      specLoop qs text tIdx prev last (score + cb)
        = ((fuzzyLoop qs text tIdx prev last score cb).1,
           (fuzzyLoop qs text tIdx prev last score cb).2.1
             + (fuzzyLoop qs text tIdx prev last score cb).2.2) := by
  intro text
  induction text with
  | nil => intro qs tIdx prev last score cb; rfl
  | cons tc rest ih =>
    intro qs tIdx prev last score cb
    cases qs with
    | nil => exact ih [] (tIdx + 1) (some tc) last score cb
    | cons qc qrest =>
      by_cases hh : tc = qc
      · cases last with
        | none =>
          simp only [specLoop, fuzzyLoop, if_pos hh]
          have harith :
              score + cb + 1 + (if isWordBoundary prev then (10 : Int) else 0) + 0
                = ((if isWordBoundary prev then score + 10 else score) + 1) + cb := by
            by_cases hw : isWordBoundary prev <;> simp [hw] <;> omega
          rw [harith]
          exact ih qrest (tIdx + 1) (some tc) (some tIdx)
            ((if isWordBoundary prev then score + 10 else score) + 1) cb
        | some l =>
          simp only [specLoop, fuzzyLoop, if_pos hh]
          have harith :
              score + cb + 1 + (if isWordBoundary prev then (10 : Int) else 0)
                + (if tIdx = l + 1 then (5 : Int) else 0)
                = ((if isWordBoundary prev then score + 10 else score) + 1)
                  + (if tIdx = l + 1 then cb + 5 else cb) := by
            by_cases hw : isWordBoundary prev <;> by_cases hl : tIdx = l + 1 <;>
              simp [hw, hl] <;> omega
          rw [harith]
          exact ih qrest (tIdx + 1) (some tc) (some tIdx)
            ((if isWordBoundary prev then score + 10 else score) + 1)
            (if tIdx = l + 1 then cb + 5 else cb)
      · simp only [specLoop, fuzzyLoop, if_neg hh]
        exact ih (qc :: qrest) (tIdx + 1) (some tc) last score cb

/-- Modelled from the spec: per-field score as a single-accumulator scan
of the lowercased field. -/
def specFieldScore (text : String) (q : List Char) : Option Int :=
  if q = [] then some 0
  else
    let r := specLoop q (lowerStr text).data 0 none none 0
    if r.1 = [] then some r.2 else none

/-- The source's fuzzy_score computes exactly the spec's per-field
score. -/
lemma fuzzy_score_eq_specFieldScore (text : String) (q : List Char) :
    fuzzy_score text q = specFieldScore text q := by
  unfold fuzzy_score specFieldScore
  by_cases hq : q = []
  · simp [hq]
  · have h := specLoop_eq_fuzzyLoop (lowerStr text).data q 0 none none 0 0
    rw [show (0 : Int) + 0 = 0 from rfl] at h
    simp only [if_neg hq, h]

/-- Field list of search_all_tasks in its fixed priority order. -/
def taskFields (t : Task) : List String :=
  [t.name, t.list_name, t.status] ++ t.description.toList ++ t.tags

/-- The or_else chain of search_all_tasks takes the score of the first
matching field in the fixed order. -/
lemma taskScore_eq_findSome (t : Task) (q : List Char) :
    taskScore t q = (taskFields t).findSome? (fun f => fuzzy_score f q) := by
  unfold taskScore taskFields
  cases hd : t.description with
  | none =>
    cases h1 : fuzzy_score t.name q <;> cases h2 : fuzzy_score t.list_name q <;>
      cases h3 : fuzzy_score t.status q <;>
      simp [List.findSome?_cons, h1, h2, h3, Option.orElse]
  | some d =>
    cases h1 : fuzzy_score t.name q <;> cases h2 : fuzzy_score t.list_name q <;>
      cases h3 : fuzzy_score t.status q <;> cases h4 : fuzzy_score d q <;>
      simp [List.findSome?_cons, h1, h2, h3, h4, Option.orElse]

/-- C5: fuzzy search tries name, list_name, status, description, then the
tags in order, scoring the first field in which the query occurs as a
subsequence of the lowercased field (1 per matched char, 10 word-boundary
bonus, 5 consecutive bonus, accumulated over one scan); a task with no
matching field is excluded from the search results. -/
theorem c5_fuzzy_search (t : Task) (q : List Char) (hq : q ≠ []) :
    (∀ f : String, (fuzzy_score f q).isSome = true ↔ q.Sublist (lowerStr f).data)
    ∧ taskScore t q = (taskFields t).findSome? (fun f => fuzzy_score f q)
    ∧ (taskScore t q = none ↔ ∀ f ∈ taskFields t, ¬ q.Sublist (lowerStr f).data)
    ∧ (∀ f : String, fuzzy_score f q = specFieldScore f q)
    ∧ (∀ (tasks : List Task) (st : LocalState) (query : String)
        (dt : DisplayTask), dt ∈ search_all_tasks tasks st query →
          (taskScore dt.task (lowerStr query).data).isSome = true) := by
  refine ⟨fun f => fuzzy_score_isSome_iff f q, taskScore_eq_findSome t q, ?_,
    fun f => fuzzy_score_eq_specFieldScore f q, ?_⟩
  · rw [taskScore_eq_findSome, List.findSome?_eq_none_iff]
    constructor
    · intro h f hf hs
      have h2 := (fuzzy_score_isSome_iff f q).mpr hs
      rw [h f hf] at h2
      simp at h2
    · intro h f hf
      cases hfs : fuzzy_score f q with
      | none => rfl
      | some v =>
        exact absurd ((fuzzy_score_isSome_iff f q).mp (by simp [hfs])) (h f hf)
  · intro tasks st query dt hdt
    by_cases hq2 : query = ""
    · simp [search_all_tasks, hq2] at hdt
    · simp only [search_all_tasks, if_neg hq2] at hdt
      obtain ⟨pair, hpair, hfst⟩ := List.mem_map.mp hdt
      rw [List.mem_mergeSort] at hpair
      obtain ⟨a, _, hsome⟩ := List.mem_filterMap.mp hpair
      cases hts : taskScore a.task (lowerStr query).data with
      | none => rw [hts] at hsome; cases hsome
      | some v =>
        rw [hts, Option.map_some'] at hsome
        have hp2 := Option.some.inj hsome
        rw [← hfst, ← hp2]
        simp [hts]

/-- Fuzzy example task named "Task Create". -/
def exF : Task :=
  { task0 with id := "f", name := "Task Create" }

/-- Witness for C5 on the query "tc" and the task named "Task Create"
(the spec's own example: "tc" matches "Task Create" but not "Card"). -/
theorem c5_fuzzy_search_witness :
    (['t', 'c'] : List Char) ≠ []
    ∧ ((fuzzy_score "Task Create" ['t', 'c']).isSome = true
        ↔ List.Sublist ['t', 'c'] (lowerStr "Task Create").data)
    ∧ taskScore exF ['t', 'c']
        = (taskFields exF).findSome? (fun f => fuzzy_score f ['t', 'c'])
    ∧ fuzzy_score "Task Create" ['t', 'c'] = some 22
    ∧ fuzzy_score "Card" ['t', 'c'] = none :=
  ⟨by decide,
   (c5_fuzzy_search exF ['t', 'c'] (by decide)).1 "Task Create",
   (c5_fuzzy_search exF ['t', 'c'] (by decide)).2.1,
   by decide, by decide⟩

/-- Auxiliary: the index fold only ever returns entries whose task id is
the looked-up key. -/
lemma taskIndex_id (st : LocalState) (key : String) :
    ∀ (tasks : List Task) (acc : Option DisplayTask),
      (∀ d, acc = some d → d.task.id = key) →
      ∀ dt, tasks.foldl
          (fun acc t => if t.id = key then some (mkDisplay st t) else acc) acc
          = some dt → dt.task.id = key := by
  intro tasks
  induction tasks with
  | nil => exact fun acc h dt hh => h dt hh
  | cons t rest ih =>
    intro acc h dt hh
    refine ih _ ?_ dt hh
    intro d hd
    dsimp only at hd
    by_cases ht : t.id = key
    · rw [if_pos ht] at hd
      rw [← Option.some.inj hd]
      exact ht
    · rw [if_neg ht] at hd
      exact h d hd

/-- A successful taskIndex lookup yields a display task carrying the
looked-up id. -/
lemma taskIndex_some_id (tasks : List Task) (st : LocalState) (key : String)
    (dt : DisplayTask) (h : taskIndex tasks st key = some dt) :
    dt.task.id = key :=
  taskIndex_id st key tasks none (fun _ hd => by cases hd) dt h

/-- One continuing step of the depth loop. -/
lemma depth_walk_step (index : String → Option DisplayTask) (added : List String)
    (f : Nat) (p : String) (d : Nat) (hp : p ∈ added) :
    depth_walk index added (f + 1) (some p) d
      = depth_walk index added f ((index p).bind (fun t => t.task.parent_id)) (d + 1) := by
  conv_lhs => rw [depth_walk]
  simp [hp]

/-- The depth loop stops at the first parent outside the visible set. -/
lemma depth_walk_stop (index : String → Option DisplayTask) (added : List String)
    (fuel : Nat) (p : String) (d : Nat) (hp : p ∉ added) :
    depth_walk index added fuel (some p) d = some d := by
  conv_lhs => rw [depth_walk.eq_def]
  simp [hp]

/-- C6: in a chain A -> B -> C where B is found in the index but fails the
assignment filter and A is the only primary task, the built working set
is exactly A and B; C is never reached. -/
theorem c6_ancestor_truncation (tasks : List Task) (st : LocalState)
    (g : TaskGroup) (uid : Option Nat) (query : String) (now : Int)
    (A B C : DisplayTask) (bId cId : String)
    (hmine : myTasks tasks st g uid query now = [A])
    (hAp : A.task.parent_id = some bId)
    (hB : taskIndex tasks st bId = some B)
    (hBp : B.task.parent_id = some cId)
    (hC : taskIndex tasks st cId = some C)
    (hBfail : assignedOk uid B = false)
    (hab : A.task.id ≠ bId) (hca : cId ≠ A.task.id) (hcb : cId ≠ bId) :
    ∃ l, current_tasks tasks st g uid query now = some l
      ∧ (l.map (fun dt => dt.task.id)).Perm [bId, A.task.id]
      ∧ cId ∉ l.map (fun dt => dt.task.id) := by
  have hBid : B.task.id = bId := taskIndex_some_id tasks st bId B hB
  have hBfail' : (uid.map (fun u => B.task.is_assigned_to u)).getD true = false :=
    hBfail
  have hwalk : ancestor_walk (taskIndex tasks st) uid (tasks.length + 1)
      A.task.parent_id [] = some [B] := by
    rw [hAp]
    simp [ancestor_walk, hB, hBfail']
  have hbuild : buildIncluded (taskIndex tasks st) uid (tasks.length + 1) [A]
      = some ([B, A], [bId, A.task.id]) := by
    simp only [buildIncluded, List.foldl_cons, List.foldl_nil, Option.some_bind]
    rw [hwalk]
    simp [pushUnique, hBid, hab]
  have hcmem : cId ∉ ([bId, A.task.id] : List String) := by
    simp [hca, hcb]
  have hdA : depth_walk (taskIndex tasks st) [bId, A.task.id] (tasks.length + 1)
      A.task.parent_id 0 = some 1 := by
    rw [hAp, depth_walk_step _ _ _ _ _ (by simp), hB]
    simp only [Option.some_bind]
    rw [hBp, depth_walk_stop _ _ _ _ _ hcmem]
  have hdB : depth_walk (taskIndex tasks st) [bId, A.task.id] (tasks.length + 1)
      B.task.parent_id 0 = some 0 := by
    rw [hBp, depth_walk_stop _ _ _ _ _ hcmem]
  have hdepths : buildDepths (taskIndex tasks st) [bId, A.task.id]
      (tasks.length + 1) [B, A] = some [(bId, 0), (A.task.id, 1)] := by
    simp only [buildDepths, List.mapM_cons, List.mapM_nil]
    rw [hdB, hdA]
    simp [hBid]
  refine ⟨([B, A]).mergeSort (fun a b => (taskCompare (taskIndex tasks st)
      [bId, A.task.id] [(bId, 0), (A.task.id, 1)] (tasks.length + 1) a b).isLE),
    ?_, ?_, ?_⟩
  · simp only [current_tasks]
    rw [hmine, hbuild]
    simp only [Option.some_bind]
    rw [hdepths]
    rfl
  · have hperm := (List.mergeSort_perm [B, A]
      (fun a b => (taskCompare (taskIndex tasks st) [bId, A.task.id]
        [(bId, 0), (A.task.id, 1)] (tasks.length + 1) a b).isLE)).map
          (fun dt => dt.task.id)
    simpa [hBid] using hperm
  · intro hmem
    have hperm := (List.mergeSort_perm [B, A]
      (fun a b => (taskCompare (taskIndex tasks st) [bId, A.task.id]
        [(bId, 0), (A.task.id, 1)] (tasks.length + 1) a b).isLE)).map
          (fun dt => dt.task.id)
    have hm2 := hperm.mem_iff.mp hmem
    simp [hBid] at hm2
    rcases hm2 with h | h
    · exact hcb h
    · exact hca h

/-- Chain example for C6: the primary task, assigned to user 7. -/
def chA : Task :=
  { task0 with id := "a1", parent_id := some "b1", assignee_ids := [7] }

/-- Chain example for C6: middle task failing the assignment filter. -/
def chB : Task :=
  { task0 with id := "b1", parent_id := some "c1" }

/-- Chain example for C6: root task, never reached by the walk. -/
def chC : Task :=
  { task0 with id := "c1" }

/-- Witness for C6 on the concrete chain chA -> chB -> chC with user
filter 7. -/
theorem c6_ancestor_truncation_witness :
    ∃ l, current_tasks [chA, chB, chC] LocalState.empty TaskGroup.MyAction
        (some 7) "" 0 = some l
      ∧ (l.map (fun dt => dt.task.id)).Perm ["b1", "a1"]
      ∧ "c1" ∉ l.map (fun dt => dt.task.id) :=
  c6_ancestor_truncation [chA, chB, chC] LocalState.empty TaskGroup.MyAction
    (some 7) "" 0 (mkDisplay LocalState.empty chA) (mkDisplay LocalState.empty chB)
    (mkDisplay LocalState.empty chC) "b1" "c1"
    (by decide) (by decide) (by decide) (by decide) (by decide) (by decide)
    (by decide) (by decide) (by decide)

/-- Lawfulness package for an Ordering-valued comparator: swapping the
arguments swaps the result, strict lt is transitive, and an eq result
makes the arguments interchangeable as left operands. -/
structure CmpLaws {α : Type} (f : α → α → Ordering) : Prop where
  swap_eq : ∀ x y, (f x y).swap = f y x
  lt_trans : ∀ x y z, f x y = Ordering.lt → f y z = Ordering.lt →
    f x z = Ordering.lt
  eq_left : ∀ x y z, f x y = Ordering.eq → f x z = f y z

/-- An eq result also makes the arguments interchangeable on the right. -/
lemma CmpLaws.eq_right {α : Type} {f : α → α → Ordering} (L : CmpLaws f)
    (x y z : α) (h : f x y = Ordering.eq) : f z x = f z y := by
  rw [← L.swap_eq x z, ← L.swap_eq y z, L.eq_left x y z h]

/-- Trichotomy comparator yields eq exactly on equal arguments. -/
lemma cmpo_eq_eq_iff {α : Type} [LinearOrder α] (x y : α) :
    cmpo x y = Ordering.eq ↔ x = y := by
  unfold cmpo
  split
  · rename_i h
    exact iff_of_false (by decide) (ne_of_lt h)
  · split
    · rename_i h
      exact iff_of_true rfl h
    · rename_i h1 h2
      exact iff_of_false (by decide) h2

/-- Trichotomy comparator yields lt exactly on strictly smaller left
arguments. -/
lemma cmpo_lt_lt_iff {α : Type} [LinearOrder α] (x y : α) :
    cmpo x y = Ordering.lt ↔ x < y := by
  unfold cmpo
  split
  · rename_i h
    exact iff_of_true rfl h
  · split
    · rename_i h1 h2
      exact iff_of_false (by decide) h1
    · rename_i h1 h2
      exact iff_of_false (by decide) h1

/-- The trichotomy comparator on a linear order is lawful. -/
lemma cmpo_laws {α : Type} [LinearOrder α] :
    CmpLaws (fun x y : α => cmpo x y) := by
  refine ⟨?_, ?_, ?_⟩
  · intro x y
    unfold cmpo
    rcases lt_trichotomy x y with h | h | h
    · rw [if_pos h, if_neg (asymm h), if_neg (Ne.symm (ne_of_lt h))]
      rfl
    · subst h
      rw [if_neg (lt_irrefl x), if_pos rfl]
      rfl
    · rw [if_neg (asymm h), if_neg (ne_of_gt h), if_pos h]
      rfl
  · intro x y z hxy hyz
    rw [cmpo_lt_lt_iff] at hxy hyz ⊢
    exact lt_trans hxy hyz
  · intro x y z h
    rw [cmpo_eq_eq_iff] at h
    rw [h]

/-- Priority comparison yields eq exactly on equal optional priorities. -/
lemma priorityCmp_eq_eq_iff (a b : Option Nat) :
    priorityCmp a b = Ordering.eq ↔ a = b := by
  cases a <;> cases b <;> simp [priorityCmp, cmpo_eq_eq_iff]

/-- The priority comparison (missing priority last) is lawful. -/
lemma priorityCmp_laws : CmpLaws priorityCmp := by
  refine ⟨?_, ?_, ?_⟩
  · intro x y
    cases x <;> cases y
    · rfl
    · rfl
    · rfl
    · exact cmpo_laws.swap_eq _ _
  · intro x y z hxy hyz
    cases x with
    | none =>
      cases y with
      | none => exact absurd hxy (by decide)
      | some b => simp [priorityCmp] at hxy
    | some a =>
      cases y with
      | none =>
        cases z with
        | none => exact absurd hyz (by decide)
        | some c => simp [priorityCmp] at hyz
      | some b =>
        cases z with
        | none => rfl
        | some c => exact cmpo_laws.lt_trans _ _ _ hxy hyz
  · intro x y z h
    rw [priorityCmp_eq_eq_iff] at h
    rw [h]

/-- Lawfulness is preserved by precomposition with a key function. -/
lemma CmpLaws.comap {α β : Type} {f : α → α → Ordering} (L : CmpLaws f)
    (k : β → α) : CmpLaws (fun a b => f (k a) (k b)) :=
  ⟨fun x y => L.swap_eq (k x) (k y),
   fun x y z => L.lt_trans (k x) (k y) (k z),
   fun x y z => L.eq_left (k x) (k y) (k z)⟩

/-- Lexicographic combination of two comparators (Ordering.then), the
shape of the comparator chain in App::current_tasks. -/
def lexComp {α : Type} (f g : α → α → Ordering) (x y : α) : Ordering :=
  (f x y).then (g x y)

/-- An Ordering.then is eq iff both parts are. -/
lemma ordering_then_eq_eq {o₁ o₂ : Ordering} :
    o₁.then o₂ = Ordering.eq ↔ o₁ = Ordering.eq ∧ o₂ = Ordering.eq := by
  cases o₁ <;> simp [Ordering.then]

/-- Lexicographic combination preserves lawfulness. -/
lemma CmpLaws.lex {α : Type} {f g : α → α → Ordering} (Lf : CmpLaws f)
    (Lg : CmpLaws g) : CmpLaws (lexComp f g) := by
  refine ⟨?_, ?_, ?_⟩
  · intro x y
    unfold lexComp
    cases h : f x y
    · have h2 : f y x = Ordering.gt := by rw [← Lf.swap_eq x y, h]; rfl
      rw [h2]
      rfl
    · have h2 : f y x = Ordering.eq := by rw [← Lf.swap_eq x y, h]; rfl
      rw [h2]
      simpa [Ordering.then] using Lg.swap_eq x y
    · have h2 : f y x = Ordering.lt := by rw [← Lf.swap_eq x y, h]; rfl
      rw [h2]
      rfl
  · intro x y z hxy hyz
    unfold lexComp at hxy hyz ⊢
    cases hf1 : f x y <;> rw [hf1] at hxy
    · cases hf2 : f y z <;> rw [hf2] at hyz
      · rw [Lf.lt_trans x y z hf1 hf2]
        rfl
      · rw [← Lf.eq_right y z x hf2, hf1]
        rfl
      · simp [Ordering.then] at hyz
    · cases hf2 : f y z <;> rw [hf2] at hyz
      · rw [Lf.eq_left x y z hf1, hf2]
        rfl
      · rw [Lf.eq_left x y z hf1, hf2]
        simp only [Ordering.then] at hxy hyz ⊢
        exact Lg.lt_trans x y z hxy hyz
      · simp [Ordering.then] at hyz
    · simp [Ordering.then] at hxy
  · intro x y z h
    unfold lexComp at h ⊢
    rw [ordering_then_eq_eq] at h
    rw [Lf.eq_left x y z h.1, Lg.eq_left x y z h.2]

/-- Root-priority key of the sort comparator. -/
def rootPriority (index : String → Option DisplayTask) (added : List String)
    (fuel : Nat) (dt : DisplayTask) : Option Nat :=
  (index (sortRoot index added fuel dt)).bind (fun t => t.task.priority)

/-- Depth key of the sort comparator. -/
def depthKey (depths : List (String × Nat)) (dt : DisplayTask) : Nat :=
  (depths.lookup dt.task.id).getD 0

/-- The comparator as the spec words it: lexicographic on (root priority
with missing-last, root id, depth, task id). -/
def specCompare (index : String → Option DisplayTask) (added : List String)
    (depths : List (String × Nat)) (fuel : Nat) :
    DisplayTask → DisplayTask → Ordering :=
  lexComp
    (fun a b => priorityCmp (rootPriority index added fuel a)
      (rootPriority index added fuel b))
    (lexComp
      (fun a b => cmpo (sortRoot index added fuel a) (sortRoot index added fuel b))
      (lexComp
        (fun a b => cmpo (depthKey depths a) (depthKey depths b))
        (fun a b => cmpo a.task.id b.task.id)))

/-- The source comparator is exactly the spec's lexicographic
comparator. -/
lemma taskCompare_eq_specCompare (index : String → Option DisplayTask)
    (added : List String) (depths : List (String × Nat)) (fuel : Nat)
    (a b : DisplayTask) :
    taskCompare index added depths fuel a b
      = specCompare index added depths fuel a b := by
  simp only [taskCompare, specCompare, lexComp, rootPriority, depthKey]
  cases hp : priorityCmp
      ((index (sortRoot index added fuel a)).bind (fun t => t.task.priority))
      ((index (sortRoot index added fuel b)).bind (fun t => t.task.priority)) with
  | lt => simp [Ordering.then]
  | gt => simp [Ordering.then]
  | eq =>
    rw [if_neg (by simp)]
    rw [show ∀ o : Ordering, Ordering.eq.then o = o from fun o => rfl]
    by_cases hr : sortRoot index added fuel a = sortRoot index added fuel b
    · rw [if_neg (by simp [hr])]
      rw [(cmpo_eq_eq_iff _ _).mpr hr]
      rw [show ∀ o : Ordering, Ordering.eq.then o = o from fun o => rfl]
      cases hd : cmpo ((depths.lookup a.task.id).getD 0)
          ((depths.lookup b.task.id).getD 0) <;> simp [Ordering.then]
    · rw [if_pos hr]
      cases hc : cmpo (sortRoot index added fuel a) (sortRoot index added fuel b) with
      | lt => rfl
      | gt => rfl
      | eq => exact absurd ((cmpo_eq_eq_iff _ _).mp hc) hr

/-- The spec comparator is lawful. -/
lemma specCompare_laws (index : String → Option DisplayTask)
    (added : List String) (depths : List (String × Nat)) (fuel : Nat) :
    CmpLaws (specCompare index added depths fuel) :=
  (priorityCmp_laws.comap (rootPriority index added fuel)).lex
    ((cmpo_laws.comap (sortRoot index added fuel)).lex
      ((cmpo_laws.comap (depthKey depths)).lex
        (cmpo_laws.comap (fun dt => dt.task.id))))

/-- The source comparator is lawful. -/
lemma taskCompare_laws (index : String → Option DisplayTask)
    (added : List String) (depths : List (String × Nat)) (fuel : Nat) :
    CmpLaws (taskCompare index added depths fuel) := by
  have hs := specCompare_laws index added depths fuel
  have he := taskCompare_eq_specCompare index added depths fuel
  refine ⟨?_, ?_, ?_⟩
  · intro x y
    rw [he, he]
    exact hs.swap_eq x y
  · intro x y z h1 h2
    rw [he] at h1 h2 ⊢
    exact hs.lt_trans x y z h1 h2
  · intro x y z h
    rw [he] at h
    rw [he, he]
    exact hs.eq_left x y z h

/-- A lawful comparator's isLE relation is total. -/
lemma cmpLaws_isLE_total {α : Type} {f : α → α → Ordering} (L : CmpLaws f)
    (x y : α) : ((f x y).isLE || (f y x).isLE) = true := by
  cases h : f x y
  · rfl
  · rfl
  · have h2 : f y x = Ordering.lt := by rw [← L.swap_eq x y, h]; rfl
    rw [h2]
    rfl

/-- A lawful comparator's isLE relation is transitive. -/
lemma cmpLaws_isLE_trans {α : Type} {f : α → α → Ordering} (L : CmpLaws f)
    (x y z : α) (h1 : (f x y).isLE = true) (h2 : (f y z).isLE = true) :
    (f x z).isLE = true := by
  cases hxy : f x y with
  | gt => rw [hxy] at h1; exact absurd h1 (by decide)
  | eq => rw [L.eq_left x y z hxy]; exact h2
  | lt =>
    cases hyz : f y z with
    | lt => rw [L.lt_trans x y z hxy hyz]; rfl
    | eq => rw [← L.eq_right y z x hyz, hxy]; rfl
    | gt => rw [hyz] at h2; exact absurd h2 (by decide)

/-- A lawful comparator whose isLE holds both ways has compared equal. -/
lemma cmpLaws_isLE_antisymm {α : Type} {f : α → α → Ordering} (L : CmpLaws f)
    (x y : α) (h1 : (f x y).isLE = true) (h2 : (f y x).isLE = true) :
    f x y = Ordering.eq := by
  cases h : f x y with
  | eq => rfl
  | gt => rw [h] at h1; exact absurd h1 (by decide)
  | lt =>
    have h3 : f y x = Ordering.gt := by rw [← L.swap_eq x y, h]; rfl
    rw [h3] at h2
    exact absurd h2 (by decide)

/-- An eq result of the spec comparator forces equal task ids (the final
tiebreak key). -/
lemma specCompare_eq_id (index : String → Option DisplayTask)
    (added : List String) (depths : List (String × Nat)) (fuel : Nat)
    (a b : DisplayTask)
    (h : specCompare index added depths fuel a b = Ordering.eq) :
    a.task.id = b.task.id := by
  unfold specCompare lexComp at h
  rw [ordering_then_eq_eq] at h
  have h2 := h.2
  rw [ordering_then_eq_eq] at h2
  have h3 := h2.2
  rw [ordering_then_eq_eq] at h3
  exact (cmpo_eq_eq_iff _ _).mp h3.2

/-- Two sorted permutations of each other coincide when the sorting
relation is antisymmetric on the elements involved. -/
lemma pairwise_perm_eq {α : Type} (le : α → α → Bool) :
    ∀ (l₁ l₂ : List α), l₁.Perm l₂ →
      l₁.Pairwise (fun a b => le a b = true) →
      l₂.Pairwise (fun a b => le a b = true) →
      (∀ a b, a ∈ l₁ → b ∈ l₁ → le a b = true → le b a = true → a = b) →
      l₁ = l₂ := by
  intro l₁
  induction l₁ with
  | nil =>
    intro l₂ hp _ _ _
    exact (List.Perm.eq_nil hp.symm).symm
  | cons a t ih =>
    intro l₂ hp hs1 hs2 hanti
    cases l₂ with
    | nil => exact absurd hp.eq_nil (by simp)
    | cons b t₂ =>
      by_cases hab : a = b
      · subst hab
        have ht := hp.cons_inv
        have h2 := ih t₂ ht hs1.of_cons hs2.of_cons
          (fun x y hx hy => hanti x y (List.mem_cons_of_mem a hx)
            (List.mem_cons_of_mem a hy))
        rw [h2]
      · exfalso
        have hbmem : b ∈ a :: t := hp.mem_iff.mpr (List.mem_cons_self b t₂)
        have hamem : a ∈ b :: t₂ := hp.mem_iff.mp (List.mem_cons_self a t)
        have hbt : b ∈ t := by
          rcases List.mem_cons.mp hbmem with h | h
          · exact absurd h.symm hab
          · exact h
        have hat2 : a ∈ t₂ := by
          rcases List.mem_cons.mp hamem with h | h
          · exact absurd h hab
          · exact h
        have hle1 : le a b = true := (List.pairwise_cons.mp hs1).1 b hbt
        have hle2 : le b a = true := (List.pairwise_cons.mp hs2).1 a hat2
        exact hab (hanti a b (List.mem_cons_self a t) hbmem hle1 hle2)

/-- C3: the sort comparator of current_tasks is the lexicographic
comparison on (root priority ascending with a missing priority last,
root id, depth, task id); since the last key is the task id, on a
working set with pairwise distinct ids it is a strict total order, so
sorting any two permutations of the set yields the identical list. -/
theorem c3_sort_deterministic (index : String → Option DisplayTask)
    (added : List String) (depths : List (String × Nat)) (fuel : Nat) :
    (∀ p q : Nat, priorityCmp (some p) (some q) = cmpo p q
      ∧ priorityCmp (some p) none = Ordering.lt
      ∧ priorityCmp none (some p) = Ordering.gt)
    ∧ (∀ a b : DisplayTask, taskCompare index added depths fuel a b
        = specCompare index added depths fuel a b)
    ∧ (∀ l₁ l₂ : List DisplayTask, l₁.Perm l₂ →
        (l₁.map (fun dt => dt.task.id)).Nodup →
        l₁.mergeSort (fun a b => (taskCompare index added depths fuel a b).isLE)
          = l₂.mergeSort (fun a b => (taskCompare index added depths fuel a b).isLE)) := by
  refine ⟨fun p q => ⟨rfl, rfl, rfl⟩,
    taskCompare_eq_specCompare index added depths fuel, ?_⟩
  intro l₁ l₂ hperm hnodup
  have L := taskCompare_laws index added depths fuel
  have htrans : ∀ a b c : DisplayTask,
      (taskCompare index added depths fuel a b).isLE = true →
      (taskCompare index added depths fuel b c).isLE = true →
      (taskCompare index added depths fuel a c).isLE = true :=
    fun a b c => cmpLaws_isLE_trans L a b c
  have htotal : ∀ a b : DisplayTask,
      ((taskCompare index added depths fuel a b).isLE
        || (taskCompare index added depths fuel b a).isLE) = true :=
    fun a b => cmpLaws_isLE_total L a b
  have hs1 := List.sorted_mergeSort htrans htotal l₁
  have hs2 := List.sorted_mergeSort htrans htotal l₂
  have hp12 := ((List.mergeSort_perm l₁
      (fun a b => (taskCompare index added depths fuel a b).isLE)).trans
        hperm).trans
    (List.mergeSort_perm l₂
      (fun a b => (taskCompare index added depths fuel a b).isLE)).symm
  apply pairwise_perm_eq _ _ _ hp12 hs1 hs2
  intro x y hx hy hxy hyx
  have hmem_x : x ∈ l₁ := List.mem_mergeSort.mp hx
  have hmem_y : y ∈ l₁ := List.mem_mergeSort.mp hy
  have heq : taskCompare index added depths fuel x y = Ordering.eq :=
    cmpLaws_isLE_antisymm L x y hxy hyx
  have hid : x.task.id = y.task.id :=
    specCompare_eq_id index added depths fuel x y
      (by rw [← taskCompare_eq_specCompare]; exact heq)
  exact List.inj_on_of_nodup_map hnodup hmem_x hmem_y hid

/-- Display task on exR for the C3 witness. -/
def exD1 : DisplayTask := mkDisplay LocalState.empty exR

/-- Display task on exS for the C3 witness. -/
def exD2 : DisplayTask := mkDisplay LocalState.empty exS

/-- Witness for C3: the two orderings of a concrete two-task set sort to
the same list. -/
theorem c3_sort_deterministic_witness :
    ([exD1, exD2] : List DisplayTask).Perm [exD2, exD1]
    ∧ ([exD1, exD2].map (fun dt => dt.task.id)).Nodup
    ∧ [exD1, exD2].mergeSort
        (fun a b => (taskCompare (fun _ => none) [] [] 0 a b).isLE)
      = [exD2, exD1].mergeSort
          (fun a b => (taskCompare (fun _ => none) [] [] 0 a b).isLE) :=
  ⟨by decide, by decide,
   (c3_sort_deterministic (fun _ => none) [] [] 0).2.2 [exD1, exD2] [exD2, exD1]
     (by decide) (by decide)⟩

end ClickupTui
